import Mathlib

/-!
# Verification of the EvoLyrics genetic-algorithm engine

Shallow embedding of the two GA variants of the repository:

* `LyricGA` embeds `lyric_ga.py` — a character-string GA matching fixed-length
  strings against target lines;
* `NewLyricGA` embeds `new_lyric_ga.py` — a word-index-sequence GA with
  variable-length genomes, operator-rate tables and a composite fitness recipe.

Python floats are modelled as rationals (`ℚ`), Python lists as `List`,
`None`-able fields as `Option`, and code that can raise as `Option`-returning
functions (`none` = the call raises).  Calls to the `random` library are
modelled by passing the drawn values in explicitly: a `random.randrange(n)`
outcome is passed as a natural number reduced `% n` (exactly the support of the
sampler), a `random.random()` outcome as a rational, a `random.sample` outcome
as the list of chosen indices, and a `random.choices` draw via its cumulative
weight scan (`pyChoices`).
-/

namespace EvoLyrics

/-- An individual of the population: the Python dict
`{"fitness": ..., "solution": ...}`.  `fitness = none` models the Python
`None` ("not yet assessed"); `γ` is the genome type (`List Char` for the
string GA, `List ℕ` for the word GA). -/
structure Ind (γ : Type) where
  fitness : Option ℚ
  solution : γ
deriving DecidableEq

instance {γ : Type} [Inhabited γ] : Inhabited (Ind γ) := ⟨⟨none, default⟩⟩

/-- The sort key `i["fitness"]` used by `assess`.  Every call site applies it
only after all fitnesses have been set to `some _`, so the `getD 0` default
never fires (Python would raise a `TypeError` comparing `None` there). -/
def fitVal {γ : Type} (i : Ind γ) : ℚ := i.fitness.getD 0

/-- `pop[0]["fitness"]`: the fitness of the head of a (post-`assess`, hence
best-first) population; `0` for the empty population, which no caller builds. -/
def bestFitness {γ : Type} (pop : List (Ind γ)) : ℚ :=
  match pop with
  | [] => 0
  | i :: _ => fitVal i

/-- The comparison realising `sorted(pop, key=lambda i: i["fitness"],
reverse=True)`: `a` may precede `b` iff `b`'s fitness is at most `a`'s. -/
def fitGe {γ : Type} (a b : Ind γ) : Bool := decide (fitVal b ≤ fitVal a)

/-- `sorted(pop, key=lambda i: i["fitness"], reverse=True)` — a stable sort,
descending by fitness. -/
def sortByFitness {γ : Type} (pop : List (Ind γ)) : List (Ind γ) :=
  pop.mergeSort fitGe

theorem fitGe_trans {γ : Type} :
    ∀ a b c : Ind γ, fitGe a b = true → fitGe b c = true → fitGe a c = true := by
  intro a b c hab hbc
  simp only [fitGe, decide_eq_true_eq] at *
  exact le_trans hbc hab

theorem fitGe_total {γ : Type} :
    ∀ a b : Ind γ, (fitGe a b || fitGe b a) = true := by
  intro a b
  simp only [fitGe, Bool.or_eq_true, decide_eq_true_eq]
  exact le_total (fitVal b) (fitVal a)

theorem sortByFitness_perm {γ : Type} (pop : List (Ind γ)) :
    (sortByFitness pop).Perm pop :=
  List.mergeSort_perm pop fitGe

theorem sortByFitness_pairwise {γ : Type} (pop : List (Ind γ)) :
    (sortByFitness pop).Pairwise (fun a b => fitVal b ≤ fitVal a) := by
  have h := @List.sorted_mergeSort (Ind γ) fitGe fitGe_trans fitGe_total pop
  exact h.imp (fun hab => by simpa [fitGe] using hab)

/-- In a descending-sorted list the head bounds every member's fitness. -/
theorem fitVal_le_bestFitness_of_pairwise {γ : Type} {l : List (Ind γ)}
    (hl : l.Pairwise (fun a b => fitVal b ≤ fitVal a)) :
    ∀ x ∈ l, fitVal x ≤ bestFitness l := by
  intro x hx
  cases l with
  | nil => cases hx
  | cons h t =>
    rcases List.mem_cons.mp hx with hxh | hxt
    · subst hxh; exact le_refl _
    · exact (List.pairwise_cons.mp hl).1 x hxt

namespace LyricGA

/-- `match(str1, str2)`: the number of positions at which the two strings
agree.  The Python code indexes `str2[i]` for every `i < len(str1)` and so is
defined only when `len(str1) ≤ len(str2)` (every call site uses equal
lengths); on that domain it is the match count of the zipped strings.
(`match` is a Lean keyword, hence the name `matchCount`.) -/
def matchCount (str1 str2 : List Char) : ℕ :=
  (str1.zip str2).countP (fun p => p.1 == p.2)

/-- The accumulation loop of `get_fitness`, with a general starting
accumulator: `fitness = init`, then for each line
`score = match(solution, line); if score > fitness: fitness = score`. -/
def bestScoreFrom (solution : List Char) (init : ℕ) (lines : List (List Char)) : ℕ :=
  lines.foldl (fun fitness line =>
    let score := matchCount solution line
    if fitness < score then score else fitness) init

/-- `get_fitness(solution, lines, length)`: the best per-line match count
(accumulated from `fitness = 0` exactly as the Python loop does), divided by
`length`. -/
def get_fitness (solution : List Char) (lines : List (List Char)) (length : ℕ) : ℚ :=
  (bestScoreFrom solution 0 lines : ℚ) / (length : ℚ)

/-- `assess(pop, length, lines)`: set every individual's fitness with
`get_fitness`, then return the population sorted descending by fitness. -/
def assess (pop : List (Ind (List Char))) (length : ℕ) (lines : List (List Char)) :
    List (Ind (List Char)) :=
  sortByFitness (pop.map (fun i => ⟨some (get_fitness i.solution lines length), i.solution⟩))

theorem matchCount_le_length (a b : List Char) : matchCount a b ≤ a.length := by
  calc matchCount a b ≤ (a.zip b).length := List.countP_le_length _
    _ = min a.length b.length := List.length_zip a b
    _ ≤ a.length := min_le_left _ _

theorem matchCount_eq_length_iff :
    ∀ (a b : List Char), a.length = b.length → (matchCount a b = a.length ↔ a = b) := by
  intro a
  induction a with
  | nil =>
    intro b hb
    cases b with
    | nil => simp [matchCount]
    | cons y ys => simp at hb
  | cons x xs ih =>
    intro b hb
    cases b with
    | nil => simp at hb
    | cons y ys =>
      have hlen : xs.length = ys.length := by simpa using hb
      by_cases hxy : x = y
      · subst hxy
        have hmc : matchCount (x :: xs) (x :: ys) = matchCount xs ys + 1 := by
          simp [matchCount, List.countP_cons]
        constructor
        · intro h
          rw [hmc] at h
          simp only [List.length_cons] at h
          have hxy' := (ih ys hlen).mp (Nat.add_right_cancel h)
          rw [hxy']
        · intro h
          have hys : xs = ys := by injection h
          subst hys
          rw [hmc, (ih xs hlen).mpr rfl]
          simp
      · have hmc : matchCount (x :: xs) (y :: ys) = matchCount xs ys := by
          simp [matchCount, List.countP_cons, hxy]
        constructor
        · intro h
          exfalso
          rw [hmc] at h
          simp only [List.length_cons] at h
          have hle := matchCount_le_length xs ys
          omega
        · intro h
          exact absurd (by injection h) hxy

theorem bestScoreFrom_init_le (sol : List Char) (lines : List (List Char)) (init : ℕ) :
    init ≤ bestScoreFrom sol init lines := by
  induction lines generalizing init with
  | nil => exact le_refl _
  | cons l ls ih =>
    refine le_trans ?_ (ih (if init < matchCount sol l then matchCount sol l else init))
    split <;> omega

theorem bestScoreFrom_le (sol : List Char) (lines : List (List Char)) (init L : ℕ)
    (hinit : init ≤ L) (hlines : ∀ l ∈ lines, matchCount sol l ≤ L) :
    bestScoreFrom sol init lines ≤ L := by
  induction lines generalizing init with
  | nil => exact hinit
  | cons l ls ih =>
    refine ih (if init < matchCount sol l then matchCount sol l else init) ?_
      (fun l' hl' => hlines l' (List.mem_cons_of_mem _ hl'))
    have := hlines l (List.mem_cons_self l ls)
    split <;> omega

theorem le_bestScoreFrom (sol : List Char) (lines : List (List Char)) (init : ℕ)
    (l : List Char) (hl : l ∈ lines) :
    matchCount sol l ≤ bestScoreFrom sol init lines := by
  induction lines generalizing init with
  | nil => cases hl
  | cons y ys ih =>
    rcases List.mem_cons.mp hl with h | h
    · subst h
      refine le_trans ?_ (bestScoreFrom_init_le sol ys
        (if init < matchCount sol l then matchCount sol l else init))
      split <;> omega
    · exact ih _ h

theorem bestScoreFrom_eq_init_or_mem (sol : List Char) (lines : List (List Char)) (init : ℕ) :
    bestScoreFrom sol init lines = init ∨
      ∃ l ∈ lines, bestScoreFrom sol init lines = matchCount sol l := by
  induction lines generalizing init with
  | nil => exact Or.inl rfl
  | cons y ys ih =>
    have hstep : bestScoreFrom sol init (y :: ys) =
        bestScoreFrom sol (if init < matchCount sol y then matchCount sol y else init) ys := rfl
    rcases ih (if init < matchCount sol y then matchCount sol y else init) with h | ⟨l, hl, h⟩
    · by_cases hc : init < matchCount sol y
      · refine Or.inr ⟨y, List.mem_cons_self y ys, ?_⟩
        rw [hstep, if_pos hc] at *
        exact h
      · refine Or.inl ?_
        rw [hstep, if_neg hc] at *
        exact h
    · exact Or.inr ⟨l, List.mem_cons_of_mem _ hl, by rw [hstep, h]⟩

/-- **C3.** For equal-length strings the position-wise match count lies in
`[0, L]` and equals `L` exactly when the strings are equal; consequently the
string-GA fitness (maximum match count over the reference lines, divided by
the genome length) lies in `[0, 1]` and is `1` exactly when the genome equals
one of the reference lines. -/
theorem C3_match_bounds_and_fitness_range :
    (∀ a b : List Char, a.length = b.length →
      matchCount a b ≤ a.length ∧ (matchCount a b = a.length ↔ a = b)) ∧
    (∀ (sol : List Char) (lines : List (List Char)),
      0 < sol.length → (∀ l ∈ lines, l.length = sol.length) →
      0 ≤ get_fitness sol lines sol.length ∧ get_fitness sol lines sol.length ≤ 1 ∧
        (get_fitness sol lines sol.length = 1 ↔ ∃ l ∈ lines, sol = l)) := by
  constructor
  · intro a b hab
    exact ⟨matchCount_le_length a b, matchCount_eq_length_iff a b hab⟩
  · intro sol lines hpos hlines
    have hLpos : (0 : ℚ) < (sol.length : ℚ) := by exact_mod_cast hpos
    have hLne : (sol.length : ℚ) ≠ 0 := ne_of_gt hLpos
    have hbound : bestScoreFrom sol 0 lines ≤ sol.length :=
      bestScoreFrom_le sol lines 0 sol.length (Nat.zero_le _)
        (fun l _ => matchCount_le_length sol l)
    refine ⟨?_, ?_, ?_⟩
    · exact div_nonneg (Nat.cast_nonneg _) (Nat.cast_nonneg _)
    · rw [get_fitness, div_le_one hLpos]
      exact_mod_cast hbound
    · rw [get_fitness, div_eq_one_iff_eq hLne, Nat.cast_inj]
      constructor
      · intro h
        rcases bestScoreFrom_eq_init_or_mem sol lines 0 with h0 | ⟨l, hl, hbest⟩
        · omega
        · refine ⟨l, hl, ?_⟩
          have hlen : sol.length = l.length := (hlines l hl).symm
          exact (matchCount_eq_length_iff sol l hlen).mp (by omega)
      · rintro ⟨l, hl, hsl⟩
        have hmc : matchCount sol l = sol.length :=
          (matchCount_eq_length_iff sol l (by rw [hsl])).mpr hsl
        have hge := le_bestScoreFrom sol lines 0 l hl
        omega

/-- Witness for C3 at concrete inputs. -/
theorem C3_witness :
    (matchCount [' ', 'r', 'e', 'd'] [' ', 'r', 'o', 'd'] ≤ 4 ∧
      (matchCount [' ', 'r', 'e', 'd'] [' ', 'r', 'o', 'd'] = 4 ↔
        ([' ', 'r', 'e', 'd'] : List Char) = [' ', 'r', 'o', 'd'])) ∧
    (get_fitness ['a', 'b'] [['a', 'c'], ['a', 'b']] 2 = 1 ↔
      ∃ l ∈ [['a', 'c'], ['a', 'b']], (['a', 'b'] : List Char) = l) :=
  ⟨(C3_match_bounds_and_fitness_range.1 [' ', 'r', 'e', 'd'] [' ', 'r', 'o', 'd'] (by decide)),
    (C3_match_bounds_and_fitness_range.2 ['a', 'b'] [['a', 'c'], ['a', 'b']]
      (by decide) (by decide)).2.2⟩

/-- `random.sample(pop, k)` with drawn indices `idx`: `none` models the
`ValueError` raised when the requested sample size exceeds the population
size. -/
def pySample {α : Type} (pop : List α) (k : ℕ) (idx : List ℕ) : Option (List α) :=
  if k ≤ pop.length then some ((idx.take k).filterMap (fun i => pop[i]?)) else none

/-- The winner scan of `tournament`: `winner = competitors.pop()` takes the
*last* competitor, then the while loop pops the remaining competitors
(last to first) and replaces the winner on strictly greater fitness.
`none` models the `IndexError` of popping from an empty sample. -/
def tournWinner {γ : Type} (competitors : List (Ind γ)) : Option (Ind γ) :=
  match competitors.reverse with
  | [] => none
  | w :: rest =>
    some (rest.foldl (fun winner i => if fitVal winner < fitVal i then i else winner) w)

/-- `tournament(pop, tournament_size)`: sample, scan for the winner, return
the winner's solution. -/
def tournament (pop : List (Ind (List Char))) (tournament_size : ℕ) (idx : List ℕ) :
    Option (List Char) := do
  let competitors ← pySample pop tournament_size idx
  let w ← tournWinner competitors
  pure w.solution

/-- The recombination shared by the string-GA `cross` and the word-GA
`one_pt_cross`: `mum[:point] + dad[point:]`. -/
def crossCut {α : Type} (mum dad : List α) (point : ℕ) : List α :=
  mum.take point ++ dad.drop point

/-- The support of `random.randrange(len(mum))`, the cut-point sampler of the
string-GA `cross`: `[0, len(mum))`, upper end excluded. -/
def crossCutSupport (mum : List Char) : List ℕ := List.range mum.length

/-- `cross(mum, dad)` of the string GA.  `none` models the `ValueError` of
`random.randrange(0)` on an empty mum; otherwise the drawn cut point is
`c % len(mum)`, which ranges exactly over `crossCutSupport mum`. -/
def cross (mum dad : List Char) (c : ℕ) : Option (List Char) :=
  if mum.length = 0 then none else some (crossCut mum dad (c % mum.length))

/-- The random draws consumed while generating one offspring in `breed`: the
index lists of the two tournament samples, the `random.random()` crossover
coin, and the raw cut-point draw. -/
structure BreedRand where
  mumIdx : List ℕ
  dadIdx : List ℕ
  coin : ℚ
  cut : ℕ

/-- The body of `breed`'s while loop: produce one offspring (mum via
tournament; with probability `crossover` also a dad, combined by `cross`).
`none` propagates a raising tournament or crossover. -/
def mkOffspring (pop : List (Ind (List Char))) (tournament_size : ℕ) (crossover : ℚ)
    (r : BreedRand) : Option (Ind (List Char)) := do
  let mum ← tournament pop tournament_size r.mumIdx
  if r.coin < crossover then
    let dad ← tournament pop tournament_size r.dadIdx
    let child ← cross mum dad r.cut
    pure ⟨none, child⟩
  else
    pure ⟨none, mum⟩

/-- `breed`'s while loop: append offspring until the collection is as large as
the parent population.  `fuel` only bounds the structural recursion; `breed`
passes `pop.length`, enough for the at most `len(pop) - len(offspring_pop)`
iterations the Python loop performs. -/
def breedLoop (pop : List (Ind (List Char))) (tournament_size : ℕ) (crossover : ℚ)
    (rands : ℕ → BreedRand) :
    ℕ → List (Ind (List Char)) → Option (List (Ind (List Char)))
  | 0, offspring_pop =>
    if offspring_pop.length < pop.length then none else some offspring_pop
  | fuel + 1, offspring_pop =>
    if offspring_pop.length < pop.length then
      match mkOffspring pop tournament_size crossover (rands offspring_pop.length) with
      | none => none
      | some child =>
        breedLoop pop tournament_size crossover rands fuel (offspring_pop ++ [child])
    else some offspring_pop

/-- `breed(pop, tournament_size, crossover, elitism)`: with elitism the
offspring list is seeded with
`{"fitness": None, "solution": pop[0]["solution"]}` (on an empty pop, `none`
models the `IndexError` of `pop[0]`). -/
def breed (pop : List (Ind (List Char))) (tournament_size : ℕ) (crossover : ℚ)
    (elitism : Bool) (rands : ℕ → BreedRand) : Option (List (Ind (List Char))) :=
  match elitism, pop with
  | true, [] => none
  | true, e :: _ =>
    breedLoop pop tournament_size crossover rands pop.length [⟨none, e.solution⟩]
  | false, _ => breedLoop pop tournament_size crossover rands pop.length []

/-- The per-symbol comprehension of `mutate` on one solution: symbol `j`
becomes the freshly drawn `(r j).2` (a `random.choice(alphabet)` outcome)
when the coin `(r j).1` (a `random.random()` outcome) is below the mutation
rate, and is kept otherwise. -/
def mutateSolution (mutation : ℚ) (sol : List Char) (r : ℕ → ℚ × Char) : List Char :=
  sol.enum.map (fun p => if (r p.1).1 < mutation then (r p.1).2 else p.2)

/-- `mutate(pop, mutation, alphabet, elitism, length)`: every solution of
`pop[elitism:]` is rewritten symbol-wise; with elitism the first individual is
skipped.  (The `alphabet` argument is folded into the drawn replacement
symbols and the `length` argument is unused by the Python body.) -/
def mutate (pop : List (Ind (List Char))) (mutation : ℚ) (elitism : Bool)
    (rands : ℕ → ℕ → ℚ × Char) : List (Ind (List Char)) :=
  let k := if elitism then 1 else 0
  pop.take k ++ (pop.drop k).enum.map
    (fun p => ⟨p.2.fitness, mutateSolution mutation p.2.solution (rands p.1)⟩)

theorem breedLoop_append (pop : List (Ind (List Char))) (t : ℕ) (c : ℚ)
    (rands : ℕ → BreedRand) :
    ∀ (fuel : ℕ) (off res : List (Ind (List Char))),
      breedLoop pop t c rands fuel off = some res → ∃ rest, res = off ++ rest := by
  intro fuel
  induction fuel with
  | zero =>
    intro off res h
    simp only [breedLoop] at h
    split at h
    · cases h
    · exact ⟨[], by simp [← Option.some_inj.mp h]⟩
  | succ n ih =>
    intro off res h
    simp only [breedLoop] at h
    split at h
    · cases hmk : mkOffspring pop t c (rands off.length) with
      | none => rw [hmk] at h; cases h
      | some child =>
        rw [hmk] at h
        rcases ih (off ++ [child]) res h with ⟨rest, hrest⟩
        exact ⟨child :: rest, by simpa [List.append_assoc] using hrest⟩
    · exact ⟨[], by simp [← Option.some_inj.mp h]⟩

theorem mutate_elitism_cons (e : Ind (List Char)) (rest : List (Ind (List Char)))
    (m : ℚ) (rands : ℕ → ℕ → ℚ × Char) :
    mutate (e :: rest) m true rands =
      e :: rest.enum.map
        (fun p => ⟨p.2.fitness, mutateSolution m p.2.solution (rands p.1)⟩) := rfl

theorem mem_assess_of_mem {pop : List (Ind (List Char))} {a : Ind (List Char)}
    (ha : a ∈ pop) (length : ℕ) (lines : List (List Char)) :
    (⟨some (get_fitness a.solution lines length), a.solution⟩ : Ind (List Char)) ∈
      assess pop length lines := by
  have hmap : (⟨some (get_fitness a.solution lines length), a.solution⟩ : Ind (List Char)) ∈
      pop.map (fun i =>
        (⟨some (get_fitness i.solution lines length), i.solution⟩ : Ind (List Char))) :=
    List.mem_map_of_mem _ ha
  exact ((sortByFitness_perm _).mem_iff).mpr hmap

theorem assess_pairwise (pop : List (Ind (List Char))) (length : ℕ)
    (lines : List (List Char)) :
    (assess pop length lines).Pairwise (fun a b => fitVal b ≤ fitVal a) :=
  sortByFitness_pairwise _

theorem assess_fitness_isSome (pop : List (Ind (List Char))) (length : ℕ)
    (lines : List (List Char)) :
    ∀ i ∈ assess pop length lines, i.fitness.isSome = true := by
  intro i hi
  have hmem := ((sortByFitness_perm _).mem_iff).mp hi
  rcases List.mem_map.mp hmem with ⟨a, _, rfl⟩
  rfl

/-- **C1.**  With elitism, `breed` seeds the offspring population with an
exact copy of the current best genome with fitness reset to `None`, `mutate`
skips that first (elite) individual, and hence — the evaluator being a fixed
function of the genome — the best fitness after the next
`breed`→`mutate`→`assess` cycle is at least the previous best fitness. -/
theorem C1_elitism_monotone
    (pop off : List (Ind (List Char))) (tournament_size : ℕ) (crossover mutation : ℚ)
    (length : ℕ) (lines : List (List Char))
    (rands : ℕ → BreedRand) (mrands : ℕ → ℕ → ℚ × Char)
    (hne : pop ≠ [])
    (hfit : bestFitness pop = get_fitness (pop.headI).solution lines length)
    (hbreed : breed pop tournament_size crossover true rands = some off) :
    off.head? = some ⟨none, (pop.headI).solution⟩ ∧
    (mutate off mutation true mrands).head? = off.head? ∧
    bestFitness pop ≤ bestFitness (assess (mutate off mutation true mrands) length lines) := by
  obtain ⟨e, popt, rfl⟩ : ∃ e popt, pop = e :: popt := by
    cases pop with
    | nil => exact absurd rfl hne
    | cons e popt => exact ⟨e, popt, rfl⟩
  have hhead : (e :: popt).headI = e := rfl
  rw [hhead] at hfit ⊢
  have hL : breedLoop (e :: popt) tournament_size crossover rands (e :: popt).length
      [⟨none, e.solution⟩] = some off := hbreed
  rcases breedLoop_append _ _ _ _ _ _ _ hL with ⟨rest, hrest⟩
  subst hrest
  refine ⟨rfl, ?_, ?_⟩
  · rw [show ([(⟨none, e.solution⟩ : Ind (List Char))] ++ rest) =
      (⟨none, e.solution⟩ : Ind (List Char)) :: rest from rfl, mutate_elitism_cons]
    rfl
  · set mpop := mutate ([⟨none, e.solution⟩] ++ rest) mutation true mrands with hmpop
    have hmem : (⟨none, e.solution⟩ : Ind (List Char)) ∈ mpop := by
      rw [hmpop, show ([(⟨none, e.solution⟩ : Ind (List Char))] ++ rest) =
        (⟨none, e.solution⟩ : Ind (List Char)) :: rest from rfl, mutate_elitism_cons]
      exact List.mem_cons_self _ _
    have hmem' := mem_assess_of_mem hmem length lines
    have hle := fitVal_le_bestFitness_of_pairwise (assess_pairwise mpop length lines) _ hmem'
    have hval : fitVal (⟨some (get_fitness e.solution lines length), e.solution⟩ :
        Ind (List Char)) = get_fitness e.solution lines length := rfl
    rw [hval] at hle
    calc bestFitness (e :: popt) = get_fitness e.solution lines length := hfit
      _ ≤ bestFitness (assess mpop length lines) := hle

/-- Witness for C1 at a concrete one-individual population. -/
theorem C1_witness :
    ([(⟨some 1, ['a']⟩ : Ind (List Char))] ≠ []) ∧
    bestFitness [(⟨some 1, ['a']⟩ : Ind (List Char))] ≤
      bestFitness (assess (mutate [⟨none, ['a']⟩] 0 true (fun _ _ => (0, 'a'))) 1 [['a']]) :=
  ⟨by decide,
    (C1_elitism_monotone [⟨some 1, ['a']⟩] [⟨none, ['a']⟩] 1 0 0 1 [['a']]
      (fun _ => ⟨[], [], 0, 0⟩) (fun _ _ => (0, 'a'))
      (by decide)
      (by norm_num [bestFitness, fitVal, get_fitness, bestScoreFrom, matchCount])
      (by decide)).2.2⟩

/-- `find_line(solution, lyrics)`: the title of the first corpus entry whose
line equals the solution, else the literal not-found message. -/
def find_line (solution : List Char) (lyrics : List (String × List Char)) : String :=
  match lyrics with
  | [] => "...line is not found in any published work :("
  | (title, line) :: rest => if line = solution then title else find_line solution rest

/-- The population after `n` generations of `step` from `pop`: the trace of
the driver's loop body `pop = assess(mutate(breed(pop)))`, one (randomness
carrying) `step` per generation-counter value. -/
def evolve (step : ℕ → List (Ind (List Char)) → List (Ind (List Char)))
    (pop : List (Ind (List Char))) : ℕ → List (Ind (List Char))
  | 0 => pop
  | n + 1 => step n (evolve step pop n)

/-- The generational while loop of `lyric_ga.do_the_ga`:
`while generation < max_gen and best["fitness"] < 1`, where `best` is the
head of the (assessed, best-first) population and one generation is
`breed`→`mutate`→`assess`, abstracted as `step`. -/
def gaLoop (step : ℕ → List (Ind (List Char)) → List (Ind (List Char)))
    (max_gen : ℕ) : ℕ → List (Ind (List Char)) → ℕ × List (Ind (List Char))
  | generation, pop =>
    if h : generation < max_gen ∧ bestFitness pop < 1 then
      gaLoop step max_gen (generation + 1) (step generation pop)
    else (generation, pop)
termination_by generation pop => max_gen - generation
decreasing_by exact Nat.sub_succ_lt_self max_gen generation h.1

/-- The end-of-run report of `lyric_ga.do_the_ga`: the values emitted by the
final `print` statements — generation counter, best solution, best fitness,
and the `find_line` provenance lookup. -/
structure RunResult where
  generations : ℕ
  best_solution : List Char
  best_fitness : ℚ
  found_in : String
deriving DecidableEq

/-- The successful-run behaviour of `lyric_ga.do_the_ga` after the corpus has
loaded: run the generational loop from generation `0`, take the best (head)
individual of the final population, and report it. -/
def do_the_ga_result (step : ℕ → List (Ind (List Char)) → List (Ind (List Char)))
    (max_gen : ℕ) (pop : List (Ind (List Char))) (lyrics : List (String × List Char)) :
    RunResult :=
  let r := gaLoop step max_gen 0 pop
  let best := r.2.headI
  ⟨r.1, best.solution, fitVal best, find_line best.solution lyrics⟩

end LyricGA

namespace NewLyricGA

/-- Global parameter `max_length = 30`. -/
def max_length : ℕ := 30

/-- Global parameter `min_length = 3`. -/
def min_length : ℕ := 3

/-- The scan behind `random.choices`: walk the weights, subtracting, until
the target falls inside an item's weight band. -/
def weightedPick {α : Type} : List (α × ℚ) → ℚ → Option α
  | [], _ => none
  | (a, w) :: rest, t => if t < w then some a else weightedPick rest (t - w)

/-- `random.choices(population, weights)[0]` with `random.random()` outcome
`r`: `none` models the `ValueError` raised when the weights total zero or
less; otherwise the item whose cumulative-weight band contains
`r * total`. -/
def pyChoices {α : Type} (population : List α) (weights : List ℚ) (r : ℚ) : Option α :=
  if weights.sum ≤ 0 then none
  else weightedPick (population.zip weights) (r * weights.sum)

/-- The four mutation operator names produced by
`set_mutation_operator_rates` (`operator.split("_")[0]`). -/
inductive MType where
  | point
  | insert
  | extend
  | delete
deriving DecidableEq

/-- The random draws one mutation of a child may consume: the per-symbol
Bernoulli coins, the `random.choices` draw, the position draw, the
replacement-word draw and the extension-word draws. -/
structure MutRand where
  coins : ℕ → ℚ
  opR : ℚ
  w : ℕ
  newWord : ℕ
  ext : ℕ → ℕ

/-- One mutation event of the word-GA `mutate`, after the operator type has
been drawn: the four `if`/`elif` branches.  `length` is the Python local
`length = len(child["solution"])`, read before the event; a position draw
`random.randrange(n)` (resp. `random.randint(0, n)`) is modelled as
`r.w % n` (resp. `r.w % (n + 1)`), a word draw `random.randrange(W)` as a
value `% W`.  A branch whose bound check fails leaves the solution
unchanged.  (On an empty solution the `point`/`delete` position draw would
raise in Python; no caller produces one, and the model makes those branches
no-ops there.) -/
def mutateEvent (sol : List ℕ) (length W : ℕ) (mtype : MType) (r : MutRand) : List ℕ :=
  match mtype with
  | MType.point => sol.set (r.w % sol.length) (r.newWord % W)
  | MType.insert =>
    if sol.length < max_length then
      let w := r.w % (sol.length + 1)
      sol.take w ++ [r.newWord % W] ++ sol.drop w
    else sol
  | MType.extend =>
    if (sol.length : ℤ) < (max_length : ℤ) - 2 * (length : ℤ) then
      sol ++ [0] ++ (List.range length).map (fun i => r.ext i % W)
    else sol
  | MType.delete =>
    if sol.length > min_length then
      let w := r.w % sol.length
      sol.take w ++ sol.drop (w + 1)
    else sol

/-- Mutation of one offspring solution: draw
`m = min(1, Σ Bernoulli(1/length))` mutation events (zero or one); when the
event fires, the operator type is drawn by `random.choices` — `none` when
the operator rates sum to zero. -/
def mutateChild (sol : List ℕ) (W : ℕ) (operators : List MType) (rates : List ℚ)
    (r : MutRand) : Option (List ℕ) :=
  let length := sol.length
  let m := min 1 ((List.range length).countP (fun i => decide (r.coins i < 1 / (length : ℚ))))
  if m = 0 then some sol
  else
    match pyChoices operators rates r.opR with
    | none => none
    | some mtype => some (mutateEvent sol length W mtype r)

/-- The three crossover operator names of
`set_crossover_operator_rates`. -/
inductive CType where
  | onePt
  | twoPt
  | fourPt
deriving DecidableEq

/-- The random draws one crossover may consume: the `random.choices` draw
and up to four cut points. -/
structure CrossRand where
  opR : ℚ
  p1 : ℕ
  p2 : ℕ
  p3 : ℕ
  p4 : ℕ

/-- Python slice `l[a:b]` (for the non-negative indices used here). -/
def pySlice {α : Type} (l : List α) (a b : ℕ) : List α := (l.drop a).take (b - a)

/-- `one_pt_cross(mum, dad)` at cut `point`: `mum[:point] + dad[point:]`.
The sampler `random.randint(0, min([len(mum), len(dad)]))` draws `point`
from `onePtCutSupport`. -/
def one_pt_cross (mum dad : List ℕ) (point : ℕ) : List ℕ :=
  LyricGA.crossCut mum dad point

/-- The support of `random.randint(0, min([len(mum), len(dad)]))`: the
inclusive range `[0, min(len(mum), len(dad))]`. -/
def onePtCutSupport (mum dad : List ℕ) : List ℕ :=
  List.range (min mum.length dad.length + 1)

/-- `two_pt_cross(mum, dad)` at cuts `point1` (drawn in `[0, len(mum)]`) and
`point2` (drawn in `[0, len(dad)]`). -/
def two_pt_cross (mum dad : List ℕ) (point1 point2 : ℕ) : List ℕ :=
  mum.take (min point1 point2) ++ pySlice dad (min point1 point2) (max point1 point2) ++
    mum.drop (max point1 point2)

/-- `four_pt_cross(mum, dad)` at cuts `point1`, `point4` (drawn in
`[0, len(mum)]`) and `point2`, `point3` (drawn in `[0, len(dad)]`). -/
def four_pt_cross (mum dad : List ℕ) (point1 point2 point3 point4 : ℕ) : List ℕ :=
  mum.take (min point1 point4) ++ pySlice dad (min point2 point3) (max point2 point3) ++
    mum.drop (max point1 point4)

/-- The candidate offspring `new` built by the drawn crossover variant; each
`random.randint(0, n)` draw is modelled as a raw draw reduced `% (n + 1)`,
exactly the sampler's inclusive support. -/
def crossCandidate (mum dad : List ℕ) (ctype : CType) (r : CrossRand) : List ℕ :=
  match ctype with
  | CType.onePt => one_pt_cross mum dad (r.p1 % (min mum.length dad.length + 1))
  | CType.twoPt =>
    two_pt_cross mum dad (r.p1 % (mum.length + 1)) (r.p2 % (dad.length + 1))
  | CType.fourPt =>
    four_pt_cross mum dad (r.p1 % (mum.length + 1)) (r.p2 % (dad.length + 1))
      (r.p3 % (dad.length + 1)) (r.p4 % (mum.length + 1))

/-- `cross(mum, dad, operators, rates)` of the word GA: mismatched parent
lengths return mum before any draw; otherwise the variant is drawn by
`random.choices` (`none` when the rates sum to zero) and a candidate whose
length leaves `[min_length, max_length]` is discarded in favour of mum. -/
def cross (mum dad : List ℕ) (operators : List CType) (rates : List ℚ)
    (r : CrossRand) : Option (List ℕ) :=
  if mum.length ≠ dad.length then some mum
  else
    match pyChoices operators rates r.opR with
    | none => none
    | some ctype =>
      let new := crossCandidate mum dad ctype r
      if min_length ≤ new.length ∧ new.length ≤ max_length then some new else some mum

/-- The fitness recipe of `set_fitness_recipe`: the nine aspect weights. -/
structure Recipe where
  LP : ℚ
  IP : ℚ
  CP : ℚ
  LT : ℚ
  IT : ℚ
  CT : ℚ
  MF : ℚ
  SF : ℚ
  RF : ℚ
deriving DecidableEq

/-- The scan of `get_fitness`'s for-loop over `solution + [0]`, carrying
`pre_previous` and `previous`: the pair-legality flags, the triple-legality
flags and the non-sentinel word frequencies, in iteration order.
(`pre_previous` starts as the Python `None`, but is only ever read once
`previous ≠ 0`, by which point it has been overwritten with an integer, so
it is modelled as starting at `0`.) -/
def walk (freq : ℕ → ℚ) (word_pairs : List (ℕ × ℕ)) (word_triples : List (ℕ × ℕ × ℕ)) :
    ℕ → ℕ → List ℕ → List Bool × List Bool × List ℚ
  | _, _, [] => ([], [], [])
  | pre_previous, previous, word :: rest =>
    let s := walk freq word_pairs word_triples previous word rest
    (decide ((previous, word) ∈ word_pairs) :: s.1,
      (if previous ≠ 0 then [decide ((pre_previous, previous, word) ∈ word_triples)]
        else []) ++ s.2.1,
      (if word ≠ 0 then [freq word] else []) ++ s.2.2)

/-- `sum(True for p, pair in enumerate(flags[:-1]) if pair and flags[p+1])`:
the number of adjacent pairs of `True` flags. -/
def consecCount (flags : List Bool) : ℕ :=
  (flags.zip flags.tail).countP (fun p => p.1 && p.2)

/-- Python `max` over a list of rationals; `get_fitness` only reaches it on a
nonempty list (Python raises `ValueError` on an empty one). -/
def pyMax : List ℚ → ℚ
  | [] => 0
  | x :: xs => xs.foldl max x

/-- Python `min` over a list of rationals; only reached on nonempty lists. -/
def pyMin : List ℚ → ℚ
  | [] => 0
  | x :: xs => xs.foldl min x

/-- `get_fitness(genotype, word_dict, word_indices, word_pairs, word_triples,
fitness_recipe)` of the word GA.  `freq` is the lookup
`word_dict[word]["freq"]`; `sdev` abstracts `statistics.stdev` composed with
the `try/except` that maps a failing call to `0` — a total function, kept as
a parameter because a standard deviation of rationals is irrational in
general.  `none` models the unguarded exceptions: the `IndexError` of
`genotype[-1]` on an empty genotype, and the `ZeroDivisionError` of the mean
(followed by the `ValueError` of `max`/`min`) over an empty non-sentinel
word-frequency list — the `try/except` covers only the standard
deviation. -/
def get_fitness (genotype : List ℕ) (freq : ℕ → ℚ) (word_pairs : List (ℕ × ℕ))
    (word_triples : List (ℕ × ℕ × ℕ)) (fitness_recipe : Recipe) (sdev : List ℚ → ℚ) :
    Option ℚ :=
  match genotype.getLast? with
  | none => none
  | some last =>
    let solution := if last = 0 then genotype.dropLast else genotype
    let s := walk freq word_pairs word_triples 0 0 (solution ++ [0])
    let pairs := s.1
    let triples := s.2.1
    let word_frequencies := s.2.2
    let consecutive_pairs := consecCount pairs
    let legal_pairs := pairs.count true
    let illegal_pairs := pairs.length - legal_pairs
    let consecutive_triples := consecCount triples
    let legal_triples := triples.count true
    let illegal_triples := triples.length - legal_triples
    match word_frequencies with
    | [] => none
    | _ :: _ =>
      let mean_word_frequency :=
        (1 / 1000 : ℚ) * word_frequencies.sum / (word_frequencies.length : ℚ)
      let sdev_word_frequency := (1 / 1000 : ℚ) * sdev word_frequencies
      let range_word_frequency :=
        (1 / 1000 : ℚ) * (pyMax word_frequencies - pyMin word_frequencies)
      some (fitness_recipe.LP * legal_pairs + fitness_recipe.IP * illegal_pairs +
        fitness_recipe.CP * consecutive_pairs + fitness_recipe.LT * legal_triples +
        fitness_recipe.IT * illegal_triples + fitness_recipe.CT * consecutive_triples +
        fitness_recipe.MF * mean_word_frequency + fitness_recipe.SF * sdev_word_frequency +
        fitness_recipe.RF * range_word_frequency)

/-- `assess` of the word GA: set every individual's fitness with
`get_fitness` (`none` propagating a raising evaluation), then sort the
population descending by fitness. -/
def assess (pop : List (Ind (List ℕ))) (freq : ℕ → ℚ) (word_pairs : List (ℕ × ℕ))
    (word_triples : List (ℕ × ℕ × ℕ)) (fitness_recipe : Recipe) (sdev : List ℚ → ℚ) :
    Option (List (Ind (List ℕ))) := do
  let assessed ← pop.mapM (fun i => do
    let f ← get_fitness i.solution freq word_pairs word_triples fitness_recipe sdev
    pure (⟨some f, i.solution⟩ : Ind (List ℕ)))
  pure (sortByFitness assessed)

/-- `make_solution(solution, word_dict)`: the genome's words
(`word_dict[word]["word"]`, abstracted to the lookup `word`) joined by
spaces. -/
def make_solution (solution : List ℕ) (word : ℕ → String) : String :=
  String.intercalate " " (solution.map word)

/-- `find_line(lyric, lyrics)` of the word GA: the source label of the first
corpus entry whose reference sequence equals the solution, else `None`. -/
def find_line (solution : List ℕ) (lyrics : List (String × List ℕ)) : Option String :=
  match lyrics with
  | [] => none
  | (title, line) :: rest => if line = solution then some title else find_line solution rest

/-- The population after `n` generations of `step` from `pop` (word GA). -/
def evolve (step : ℕ → List (Ind (List ℕ)) → List (Ind (List ℕ)))
    (pop : List (Ind (List ℕ))) : ℕ → List (Ind (List ℕ))
  | 0 => pop
  | n + 1 => step n (evolve step pop n)

/-- The generational while loop of `new_lyric_ga.do_the_ga`:
`while generation < max_gen`, with no early-exit condition. -/
def gaLoop (step : ℕ → List (Ind (List ℕ)) → List (Ind (List ℕ)))
    (max_gen : ℕ) : ℕ → List (Ind (List ℕ)) → ℕ × List (Ind (List ℕ))
  | generation, pop =>
    if h : generation < max_gen then
      gaLoop step max_gen (generation + 1) (step generation pop)
    else (generation, pop)
termination_by generation pop => max_gen - generation
decreasing_by exact Nat.sub_succ_lt_self max_gen generation h

/-- The end-of-run report of `new_lyric_ga.do_the_ga`: the values emitted by
the final `print` statements — generation counter, the rendered
(space-joined) best solution, the best fitness, and the provenance label
printed only when `find_line` found the genome in the corpus. -/
structure WordRunResult where
  generations : ℕ
  best_rendered : String
  best_fitness : ℚ
  source : Option String
deriving DecidableEq

/-- The successful-run behaviour of `new_lyric_ga.do_the_ga` after the
corpus has loaded: run the loop from generation `0`, take the best (head)
individual of the final population, and report it. -/
def do_the_ga_result (step : ℕ → List (Ind (List ℕ)) → List (Ind (List ℕ)))
    (max_gen : ℕ) (pop : List (Ind (List ℕ))) (word : ℕ → String)
    (lyrics : List (String × List ℕ)) : WordRunResult :=
  let r := gaLoop step max_gen 0 pop
  let best := r.2.headI
  ⟨r.1, make_solution best.solution word, fitVal best, find_line best.solution lyrics⟩

/-- **C6.**  For a word-GA offspring genome whose length is within
`[min_length, max_length]`, one mutation event keeps the length within
bounds — `insert`/`extend` never exceed `max_length`, `delete` never goes
below `min_length`, `point` preserves the length — and a variant whose bound
check fails is a no-op for that event. -/
theorem C6_mutation_event_bounds
    (sol : List ℕ) (W : ℕ) (mtype : MType) (r : MutRand)
    (hmin : min_length ≤ sol.length) (hmax : sol.length ≤ max_length) :
    (min_length ≤ (mutateEvent sol sol.length W mtype r).length ∧
      (mutateEvent sol sol.length W mtype r).length ≤ max_length) ∧
    (¬ sol.length < max_length → mutateEvent sol sol.length W MType.insert r = sol) ∧
    (¬ ((sol.length : ℤ) < (max_length : ℤ) - 2 * (sol.length : ℤ)) →
      mutateEvent sol sol.length W MType.extend r = sol) ∧
    (¬ sol.length > min_length → mutateEvent sol sol.length W MType.delete r = sol) := by
  simp only [min_length, max_length] at hmin hmax ⊢
  have hpos : 0 < sol.length := by omega
  refine ⟨?_, ?_, ?_, ?_⟩
  · cases mtype with
    | point =>
      simp only [mutateEvent, List.length_set]
      omega
    | insert =>
      simp only [mutateEvent, min_length, max_length]
      by_cases hc : sol.length < 30
      · rw [if_pos hc]
        have hw : r.w % (sol.length + 1) < sol.length + 1 := Nat.mod_lt _ (by omega)
        simp only [List.length_append, List.length_take, List.length_drop,
          List.length_singleton]
        omega
      · rw [if_neg hc]
        omega
    | extend =>
      simp only [mutateEvent, min_length, max_length, Nat.cast_ofNat]
      by_cases hc : (sol.length : ℤ) < (30 : ℤ) - 2 * (sol.length : ℤ)
      · rw [if_pos hc]
        simp only [List.length_append, List.length_map, List.length_range,
          List.length_singleton]
        omega
      · rw [if_neg hc]
        omega
    | delete =>
      simp only [mutateEvent, min_length, max_length]
      by_cases hc : sol.length > 3
      · rw [if_pos hc]
        have hw : r.w % sol.length < sol.length := Nat.mod_lt _ hpos
        simp only [List.length_append, List.length_take, List.length_drop]
        omega
      · rw [if_neg hc]
        omega
  · intro hc
    simp only [mutateEvent, min_length, max_length, Nat.cast_ofNat] at hc ⊢
    rw [if_neg hc]
  · intro hc
    simp only [mutateEvent, min_length, max_length, Nat.cast_ofNat] at hc ⊢
    rw [if_neg hc]
  · intro hc
    simp only [mutateEvent, min_length, max_length, Nat.cast_ofNat] at hc ⊢
    rw [if_neg hc]

/-- Witness for C6 at a concrete in-bounds genome. -/
theorem C6_witness :
    min_length ≤ (mutateEvent [1, 2, 3] 3 5 MType.insert
        ⟨fun _ => 0, 0, 0, 0, fun _ => 0⟩).length ∧
    (mutateEvent [1, 2, 3] 3 5 MType.insert
        ⟨fun _ => 0, 0, 0, 0, fun _ => 0⟩).length ≤ max_length :=
  (C6_mutation_event_bounds [1, 2, 3] 5 MType.insert ⟨fun _ => 0, 0, 0, 0, fun _ => 0⟩
    (by decide) (by decide)).1

/-- **C7.**  Word-GA `cross`: parents of differing lengths return mum
unchanged (before any draw); otherwise, once a variant has been drawn, a
candidate offspring with out-of-bounds length is discarded for mum, and an
in-bounds candidate is returned as is. -/
theorem C7_cross_length_fallback
    (mum dad : List ℕ) (operators : List CType) (rates : List ℚ) (r : CrossRand) :
    (mum.length ≠ dad.length → cross mum dad operators rates r = some mum) ∧
    (∀ ctype : CType, mum.length = dad.length →
      pyChoices operators rates r.opR = some ctype →
      ((crossCandidate mum dad ctype r).length < min_length ∨
          max_length < (crossCandidate mum dad ctype r).length →
        cross mum dad operators rates r = some mum) ∧
      (min_length ≤ (crossCandidate mum dad ctype r).length ∧
          (crossCandidate mum dad ctype r).length ≤ max_length →
        cross mum dad operators rates r = some (crossCandidate mum dad ctype r))) := by
  constructor
  · intro hne
    simp only [cross, if_pos hne]
  · intro ctype heq hchoice
    constructor
    · intro hout
      simp only [cross, heq, ne_eq, not_true_eq_false, if_false, ite_false, hchoice]
      rw [if_neg (by omega)]
    · intro hin
      simp only [cross, heq, ne_eq, not_true_eq_false, if_false, ite_false, hchoice]
      rw [if_pos hin]

/-- Witness for C7 at concrete parents and a one-point-only rate table. -/
theorem C7_witness :
    cross [1, 2, 3] [4, 5, 6] [CType.onePt] [1]
        ⟨0, 0, 0, 0, 0⟩ =
      some (crossCandidate [1, 2, 3] [4, 5, 6] CType.onePt ⟨0, 0, 0, 0, 0⟩) :=
  ((C7_cross_length_fallback [1, 2, 3] [4, 5, 6] [CType.onePt] [1] ⟨0, 0, 0, 0, 0⟩).2
    CType.onePt rfl
    (by norm_num [pyChoices, weightedPick])).2
    (by decide)

theorem walk_freq_nil (freq : ℕ → ℚ) (word_pairs : List (ℕ × ℕ))
    (word_triples : List (ℕ × ℕ × ℕ)) :
    ∀ (l : List ℕ), (∀ w ∈ l, w = 0) → ∀ a b : ℕ,
      (walk freq word_pairs word_triples a b l).2.2 = [] := by
  intro l
  induction l with
  | nil => intro _ a b; rfl
  | cons w rest ih =>
    intro h a b
    have hw : w = 0 := h w (List.mem_cons_self _ _)
    subst hw
    have hr := ih (fun x hx => h x (List.mem_cons_of_mem _ hx)) b 0
    simp [walk, hr]

/-- **C10.**  On an all-sentinel genome of in-bounds length the word-GA
fitness evaluator raises: the non-sentinel word-frequency list is empty, so
the mean divides by zero (and the range takes `max`/`min` of an empty list),
neither being guarded by the `try/except` that only covers the standard
deviation. -/
theorem C10_all_sentinel_genome_raises
    (n : ℕ) (freq : ℕ → ℚ) (word_pairs : List (ℕ × ℕ)) (word_triples : List (ℕ × ℕ × ℕ))
    (fitness_recipe : Recipe) (sdev : List ℚ → ℚ)
    (hmin : min_length ≤ n) (hmax : n ≤ max_length) :
    get_fitness (List.replicate n 0) freq word_pairs word_triples fitness_recipe sdev =
      none := by
  simp only [min_length, max_length] at hmin hmax
  obtain ⟨m, rfl⟩ : ∃ m, n = m + 1 := ⟨n - 1, by omega⟩
  have hrep : List.replicate (m + 1) (0 : ℕ) = List.replicate m 0 ++ [0] :=
    List.replicate_succ' m 0
  have hzero : ∀ w ∈ List.replicate m (0 : ℕ) ++ [0], w = 0 := by
    intro w hw
    rcases List.mem_append.mp hw with h | h
    · exact (List.eq_of_mem_replicate h)
    · simpa using h
  have hfreqs := walk_freq_nil freq word_pairs word_triples
    (List.replicate m 0 ++ [0]) hzero 0 0
  rw [hrep]
  simp only [get_fitness, List.getLast?_concat, List.dropLast_concat, reduceIte, hfreqs]

/-- Witness for C10 at the concrete genome `[0, 0, 0]`. -/
theorem C10_witness :
    get_fitness [0, 0, 0] (fun _ => 0) [] [] ⟨0, 0, 0, 0, 0, 0, 0, 0, 0⟩ (fun _ => 0) =
      none := by
  have h := C10_all_sentinel_genome_raises 3 (fun _ => 0) [] []
    ⟨0, 0, 0, 0, 0, 0, 0, 0, 0⟩ (fun _ => 0) (by decide) (by decide)
  simpa using h

end NewLyricGA

theorem mapM_option_mem {α β : Type} (f : α → Option β) :
    ∀ (l : List α) (res : List β), l.mapM f = some res → ∀ b ∈ res, ∃ a ∈ l, f a = some b := by
  intro l
  induction l with
  | nil =>
    intro res h b hb
    rw [List.mapM_nil] at h
    cases h
    cases hb
  | cons x xs ih =>
    intro res h b hb
    rw [List.mapM_cons] at h
    cases hfx : f x with
    | none => rw [hfx] at h; cases h
    | some y =>
      rw [hfx] at h
      cases hxs : xs.mapM f with
      | none => rw [hxs] at h; cases h
      | some ys =>
        rw [hxs] at h
        have hres : y :: ys = res := by simpa using h
        subst hres
        rcases List.mem_cons.mp hb with rfl | hbys
        · exact ⟨x, List.mem_cons_self _ _, hfx⟩
        · rcases ih ys hxs b hbys with ⟨a, ha, hfa⟩
          exact ⟨a, List.mem_cons_of_mem _ ha, hfa⟩

theorem word_assess_some_elim
    (pop res : List (Ind (List ℕ))) (freq : ℕ → ℚ) (word_pairs : List (ℕ × ℕ))
    (word_triples : List (ℕ × ℕ × ℕ)) (recipe : NewLyricGA.Recipe) (sdev : List ℚ → ℚ)
    (h : NewLyricGA.assess pop freq word_pairs word_triples recipe sdev = some res) :
    ∃ assessed,
      pop.mapM (fun i => do
        let f ← NewLyricGA.get_fitness i.solution freq word_pairs word_triples recipe sdev
        pure (⟨some f, i.solution⟩ : Ind (List ℕ))) = some assessed ∧
      res = sortByFitness assessed := by
  unfold NewLyricGA.assess at h
  cases hm : pop.mapM (fun i => do
      let f ← NewLyricGA.get_fitness i.solution freq word_pairs word_triples recipe sdev
      pure (⟨some f, i.solution⟩ : Ind (List ℕ))) with
  | none => rw [hm] at h; cases h
  | some assessed =>
    rw [hm] at h
    exact ⟨assessed, rfl, by simpa using h.symm⟩

/-- **C2.**  `assess` assigns a fitness to every individual and returns the
population sorted descending by fitness (adjacent pairs non-increasing, the
head maximal), for the string GA unconditionally and for the word GA on
every run where no fitness evaluation raises. -/
theorem C2_assess_assigns_and_sorts :
    (∀ (pop : List (Ind (List Char))) (length : ℕ) (lines : List (List Char)),
      (∀ i ∈ LyricGA.assess pop length lines, i.fitness.isSome = true) ∧
      (LyricGA.assess pop length lines).Chain' (fun a b => fitVal b ≤ fitVal a) ∧
      (∀ i ∈ LyricGA.assess pop length lines,
        fitVal i ≤ bestFitness (LyricGA.assess pop length lines))) ∧
    (∀ (pop res : List (Ind (List ℕ))) (freq : ℕ → ℚ) (word_pairs : List (ℕ × ℕ))
        (word_triples : List (ℕ × ℕ × ℕ)) (recipe : NewLyricGA.Recipe)
        (sdev : List ℚ → ℚ),
      NewLyricGA.assess pop freq word_pairs word_triples recipe sdev = some res →
      (∀ i ∈ res, i.fitness.isSome = true) ∧
      res.Chain' (fun a b => fitVal b ≤ fitVal a) ∧
      (∀ i ∈ res, fitVal i ≤ bestFitness res)) := by
  constructor
  · intro pop length lines
    refine ⟨LyricGA.assess_fitness_isSome pop length lines,
      (LyricGA.assess_pairwise pop length lines).chain', ?_⟩
    exact fitVal_le_bestFitness_of_pairwise (LyricGA.assess_pairwise pop length lines)
  · intro pop res freq word_pairs word_triples recipe sdev h
    rcases word_assess_some_elim pop res freq word_pairs word_triples recipe sdev h with
      ⟨assessed, hm, rfl⟩
    refine ⟨?_, (sortByFitness_pairwise assessed).chain', ?_⟩
    · intro i hi
      have hi' := ((sortByFitness_perm assessed).mem_iff).mp hi
      rcases mapM_option_mem _ pop assessed hm i hi' with ⟨a, _, hfa⟩
      cases hga : NewLyricGA.get_fitness a.solution freq word_pairs word_triples recipe
          sdev with
      | none => rw [hga] at hfa; cases hfa
      | some q =>
        rw [hga] at hfa
        have : (⟨some q, a.solution⟩ : Ind (List ℕ)) = i := by simpa using hfa
        rw [← this]
        rfl
    · exact fitVal_le_bestFitness_of_pairwise (sortByFitness_pairwise assessed)

/-- Witness for C2: the string side at a singleton population, the word side
at a singleton population whose (all-zero-weight) assessment succeeds. -/
theorem C2_witness :
    (∀ i ∈ LyricGA.assess [⟨none, ['a']⟩] 1 [['a']], i.fitness.isSome = true) ∧
    ([(⟨some 0, [1]⟩ : Ind (List ℕ))].Chain' (fun a b => fitVal b ≤ fitVal a)) :=
  ⟨(C2_assess_assigns_and_sorts.1 [⟨none, ['a']⟩] 1 [['a']]).1,
    ((C2_assess_assigns_and_sorts.2 [⟨none, [1]⟩] [⟨some 0, [1]⟩] (fun _ => 0) [] []
      ⟨0, 0, 0, 0, 0, 0, 0, 0, 0⟩ (fun _ => 0)
      (by
        simp [NewLyricGA.assess, NewLyricGA.get_fitness, NewLyricGA.walk,
          NewLyricGA.consecCount, NewLyricGA.pyMax, NewLyricGA.pyMin, sortByFitness,
          List.mapM.loop, List.getLast?_singleton])).2.1)⟩

/-- Counterexample to C4 as stated: the string-GA cut sampler
`random.randrange(len(mum))` excludes the inclusive upper endpoint
`min(len(mum), len(dad))` that the claim asserts for both variants, and the
word-GA `one_pt_cross` at cut `len(mum)` does not return mum when dad is
longer. -/
theorem C4_counterexample :
    (2 ≤ min (['a', 'b'] : List Char).length (['c', 'd'] : List Char).length ∧
      2 ∉ LyricGA.crossCutSupport ['a', 'b']) ∧
    (1 ∈ NewLyricGA.onePtCutSupport [5] [6, 7] ∧
      NewLyricGA.one_pt_cross [5] [6, 7] 1 ≠ [5]) := by decide

/-- **C4 (amended).**  Both one-point crossovers return
`mum[:c] + dad[c:]`.  The word-GA `one_pt_cross` draws its cut from the
inclusive range `[0, min(len(mum), len(dad))]`, while the string-GA `cross`
draws from `[0, len(mum))`, upper end excluded.  A cut at `0` returns
exactly dad; a cut at `len(mum)` returns exactly mum whenever dad is no
longer than mum (in particular for the equal-length parents of the string
GA and of the word-GA call site). -/
theorem C4_one_point_cross_amended :
    (∀ (mum : List Char) (c : ℕ), c ∈ LyricGA.crossCutSupport mum ↔ c < mum.length) ∧
    (∀ (mum dad : List ℕ) (c : ℕ),
      c ∈ NewLyricGA.onePtCutSupport mum dad ↔ c ≤ min mum.length dad.length) ∧
    (∀ (mum dad : List Char) (c : ℕ), mum ≠ [] →
      c % mum.length ∈ LyricGA.crossCutSupport mum ∧
      LyricGA.cross mum dad c = some (LyricGA.crossCut mum dad (c % mum.length))) ∧
    (∀ (mum dad : List ℕ) (r : NewLyricGA.CrossRand),
      r.p1 % (min mum.length dad.length + 1) ∈ NewLyricGA.onePtCutSupport mum dad ∧
      NewLyricGA.crossCandidate mum dad NewLyricGA.CType.onePt r =
        NewLyricGA.one_pt_cross mum dad (r.p1 % (min mum.length dad.length + 1))) ∧
    (∀ (mum dad : List Char), LyricGA.crossCut mum dad 0 = dad) ∧
    (∀ (mum dad : List ℕ), NewLyricGA.one_pt_cross mum dad 0 = dad) ∧
    (∀ (mum dad : List Char), dad.length ≤ mum.length →
      LyricGA.crossCut mum dad mum.length = mum) ∧
    (∀ (mum dad : List ℕ), dad.length ≤ mum.length →
      NewLyricGA.one_pt_cross mum dad mum.length = mum) := by
  refine ⟨?_, ?_, ?_, ?_, ?_, ?_, ?_, ?_⟩
  · intro mum c
    simp [LyricGA.crossCutSupport, List.mem_range]
  · intro mum dad c
    simp [NewLyricGA.onePtCutSupport, List.mem_range, Nat.lt_succ_iff]
  · intro mum dad c hne
    have hpos : 0 < mum.length := List.length_pos.mpr hne
    constructor
    · simp only [LyricGA.crossCutSupport, List.mem_range]
      exact Nat.mod_lt _ hpos
    · simp only [LyricGA.cross]
      rw [if_neg (Nat.pos_iff_ne_zero.mp hpos)]
  · intro mum dad r
    constructor
    · simp only [NewLyricGA.onePtCutSupport, List.mem_range]
      exact Nat.mod_lt _ (Nat.succ_pos _)
    · rfl
  · intro mum dad
    simp [LyricGA.crossCut]
  · intro mum dad
    simp [NewLyricGA.one_pt_cross, LyricGA.crossCut]
  · intro mum dad h
    simp [LyricGA.crossCut, List.take_length, List.drop_eq_nil_of_le h]
  · intro mum dad h
    simp [NewLyricGA.one_pt_cross, LyricGA.crossCut, List.drop_eq_nil_of_le h]

/-- Witness for the amended C4 at concrete parents. -/
theorem C4_witness :
    LyricGA.crossCut ['x', 'y'] ['z', 'w'] (['x', 'y'] : List Char).length = ['x', 'y'] ∧
    NewLyricGA.one_pt_cross [1, 2] [3, 4] 0 = [3, 4] :=
  ⟨C4_one_point_cross_amended.2.2.2.2.2.2.1 ['x', 'y'] ['z', 'w'] (by decide),
    C4_one_point_cross_amended.2.2.2.2.2.1 [1, 2] [3, 4]⟩

theorem string_gaLoop_trace (step : ℕ → List (Ind (List Char)) → List (Ind (List Char)))
    (max_gen : ℕ) (pop : List (Ind (List Char))) :
    ∀ (d gen : ℕ), max_gen - gen ≤ d → gen ≤ max_gen →
      ∃ g, LyricGA.gaLoop step max_gen gen (LyricGA.evolve step pop gen) =
          (g, LyricGA.evolve step pop g) ∧
        gen ≤ g ∧ g ≤ max_gen ∧
        (g = max_gen ∨ 1 ≤ bestFitness (LyricGA.evolve step pop g)) ∧
        (∀ n, gen ≤ n → n < g → bestFitness (LyricGA.evolve step pop n) < 1) := by
  intro d
  induction d with
  | zero =>
    intro gen hd hgen
    have hge : gen = max_gen := by omega
    refine ⟨gen, ?_, le_refl _, hgen, Or.inl hge, fun n h1 h2 => absurd h2 (by omega)⟩
    rw [LyricGA.gaLoop, dif_neg (by rintro ⟨hlt, _⟩; omega)]
  | succ d ih =>
    intro gen hd hgen
    by_cases hc : gen < max_gen ∧ bestFitness (LyricGA.evolve step pop gen) < 1
    · have hlt := hc.1
      have hstep : step gen (LyricGA.evolve step pop gen) =
        LyricGA.evolve step pop (gen + 1) := rfl
      rcases ih (gen + 1) (by omega) (by omega) with ⟨g, heq, hg1, hg2, hexit, hprev⟩
      refine ⟨g, ?_, by omega, hg2, hexit, ?_⟩
      · rw [LyricGA.gaLoop, dif_pos hc, hstep, heq]
      · intro n h1 h2
        rcases Nat.lt_or_ge n (gen + 1) with h | h
        · have hn : n = gen := by omega
          rw [hn]
          exact hc.2
        · exact hprev n h h2
    · refine ⟨gen, ?_, le_refl _, hgen, ?_, fun n h1 h2 => absurd h2 (by omega)⟩
      · rw [LyricGA.gaLoop, dif_neg hc]
      · rcases not_and_or.mp hc with h | h
        · exact Or.inl (by omega)
        · exact Or.inr (le_of_not_lt h)

theorem word_gaLoop_trace (step : ℕ → List (Ind (List ℕ)) → List (Ind (List ℕ)))
    (max_gen : ℕ) (pop : List (Ind (List ℕ))) :
    ∀ (d gen : ℕ), max_gen - gen ≤ d → gen ≤ max_gen →
      NewLyricGA.gaLoop step max_gen gen (NewLyricGA.evolve step pop gen) =
        (max_gen, NewLyricGA.evolve step pop max_gen) := by
  intro d
  induction d with
  | zero =>
    intro gen hd hgen
    have hge : gen = max_gen := by omega
    subst hge
    rw [NewLyricGA.gaLoop, dif_neg (lt_irrefl _)]
  | succ d ih =>
    intro gen hd hgen
    by_cases hc : gen < max_gen
    · have hstep : step gen (NewLyricGA.evolve step pop gen) =
        NewLyricGA.evolve step pop (gen + 1) := rfl
      rw [NewLyricGA.gaLoop, dif_pos hc, hstep]
      exact ih (gen + 1) (by omega) (by omega)
    · have hge : gen = max_gen := by omega
      subst hge
      rw [NewLyricGA.gaLoop, dif_neg (lt_irrefl _)]

/-- **C5.**  The string-GA generational loop, started at generation `0`,
stops at the first generation `g` where `g = max_gen` or the best fitness
has reached `1` (so `g ≤ max_gen`, the early exit fired only if all earlier
generations had best fitness below `1`); the word-GA loop has no early exit
and always runs exactly `max_gen` generations. -/
theorem C5_driver_termination :
    (∀ (step : ℕ → List (Ind (List Char)) → List (Ind (List Char)))
        (max_gen : ℕ) (pop : List (Ind (List Char))),
      ∃ g, LyricGA.gaLoop step max_gen 0 pop = (g, LyricGA.evolve step pop g) ∧
        g ≤ max_gen ∧
        (g = max_gen ∨ 1 ≤ bestFitness (LyricGA.evolve step pop g)) ∧
        (∀ n < g, bestFitness (LyricGA.evolve step pop n) < 1)) ∧
    (∀ (step : ℕ → List (Ind (List ℕ)) → List (Ind (List ℕ)))
        (max_gen : ℕ) (pop : List (Ind (List ℕ))),
      NewLyricGA.gaLoop step max_gen 0 pop =
        (max_gen, NewLyricGA.evolve step pop max_gen)) := by
  constructor
  · intro step max_gen pop
    rcases string_gaLoop_trace step max_gen pop max_gen 0 (by omega) (by omega) with
      ⟨g, heq, _, hg2, hexit, hprev⟩
    exact ⟨g, heq, hg2, hexit, fun n hn => hprev n (Nat.zero_le n) hn⟩
  · intro step max_gen pop
    exact word_gaLoop_trace step max_gen pop max_gen 0 (by omega) (by omega)

/-- Witness for C5 at a concrete four-generation word-GA run. -/
theorem C5_witness :
    NewLyricGA.gaLoop (fun _ p => p) 4 0 [] =
      (4, NewLyricGA.evolve (fun _ p => p) ([] : List (Ind (List ℕ))) 4) :=
  C5_driver_termination.2 (fun _ p => p) 4 []

theorem string_find_line_found (solution : List Char) :
    ∀ (lyrics : List (String × List Char)), (∃ e ∈ lyrics, e.2 = solution) →
      ∃ e ∈ lyrics, e.2 = solution ∧ LyricGA.find_line solution lyrics = e.1 := by
  intro lyrics
  induction lyrics with
  | nil =>
    rintro ⟨e, he, _⟩
    cases he
  | cons p rest ih =>
    rintro ⟨e, he, hsol⟩
    obtain ⟨t, l⟩ := p
    by_cases hp : l = solution
    · refine ⟨(t, l), List.mem_cons_self _ _, hp, ?_⟩
      simp only [LyricGA.find_line]
      rw [if_pos hp]
    · rcases List.mem_cons.mp he with rfl | hrest
      · exact absurd hsol hp
      · rcases ih ⟨e, hrest, hsol⟩ with ⟨e', he', hs', hf'⟩
        refine ⟨e', List.mem_cons_of_mem _ he', hs', ?_⟩
        simp only [LyricGA.find_line]
        rw [if_neg hp, hf']

theorem word_find_line_found (solution : List ℕ) :
    ∀ (lyrics : List (String × List ℕ)), (∃ e ∈ lyrics, e.2 = solution) →
      ∃ e ∈ lyrics, e.2 = solution ∧
        NewLyricGA.find_line solution lyrics = some e.1 := by
  intro lyrics
  induction lyrics with
  | nil =>
    rintro ⟨e, he, _⟩
    cases he
  | cons p rest ih =>
    rintro ⟨e, he, hsol⟩
    obtain ⟨t, l⟩ := p
    by_cases hp : l = solution
    · refine ⟨(t, l), List.mem_cons_self _ _, hp, ?_⟩
      simp only [NewLyricGA.find_line]
      rw [if_pos hp]
    · rcases List.mem_cons.mp he with rfl | hrest
      · exact absurd hsol hp
      · rcases ih ⟨e, hrest, hsol⟩ with ⟨e', he', hs', hf'⟩
        refine ⟨e', List.mem_cons_of_mem _ he', hs', ?_⟩
        simp only [NewLyricGA.find_line]
        rw [if_neg hp, hf']

/-- **C8.**  On a successful run both drivers report the total generations
run, the best genome rendered naturally (the character string itself for the
string GA, the space-joined words for the word GA), the best fitness, and —
when the best genome exactly matches a corpus reference — that reference's
source label. -/
theorem C8_run_report :
    (∀ (step : ℕ → List (Ind (List Char)) → List (Ind (List Char))) (max_gen : ℕ)
        (pop : List (Ind (List Char))) (lyrics : List (String × List Char)),
      (LyricGA.do_the_ga_result step max_gen pop lyrics).generations =
        (LyricGA.gaLoop step max_gen 0 pop).1 ∧
      (LyricGA.do_the_ga_result step max_gen pop lyrics).best_solution =
        (LyricGA.gaLoop step max_gen 0 pop).2.headI.solution ∧
      (LyricGA.do_the_ga_result step max_gen pop lyrics).best_fitness =
        fitVal (LyricGA.gaLoop step max_gen 0 pop).2.headI ∧
      ((∃ e ∈ lyrics, e.2 = (LyricGA.gaLoop step max_gen 0 pop).2.headI.solution) →
        ∃ e ∈ lyrics, e.2 = (LyricGA.gaLoop step max_gen 0 pop).2.headI.solution ∧
          (LyricGA.do_the_ga_result step max_gen pop lyrics).found_in = e.1)) ∧
    (∀ (step : ℕ → List (Ind (List ℕ)) → List (Ind (List ℕ))) (max_gen : ℕ)
        (pop : List (Ind (List ℕ))) (word : ℕ → String)
        (lyrics : List (String × List ℕ)),
      (NewLyricGA.do_the_ga_result step max_gen pop word lyrics).generations =
        (NewLyricGA.gaLoop step max_gen 0 pop).1 ∧
      (NewLyricGA.do_the_ga_result step max_gen pop word lyrics).best_rendered =
        String.intercalate " "
          ((NewLyricGA.gaLoop step max_gen 0 pop).2.headI.solution.map word) ∧
      (NewLyricGA.do_the_ga_result step max_gen pop word lyrics).best_fitness =
        fitVal (NewLyricGA.gaLoop step max_gen 0 pop).2.headI ∧
      ((∃ e ∈ lyrics, e.2 = (NewLyricGA.gaLoop step max_gen 0 pop).2.headI.solution) →
        ∃ e ∈ lyrics, e.2 = (NewLyricGA.gaLoop step max_gen 0 pop).2.headI.solution ∧
          (NewLyricGA.do_the_ga_result step max_gen pop word lyrics).source =
            some e.1)) := by
  constructor
  · intro step max_gen pop lyrics
    refine ⟨rfl, rfl, rfl, ?_⟩
    intro hex
    exact string_find_line_found _ lyrics hex
  · intro step max_gen pop word lyrics
    refine ⟨rfl, rfl, rfl, ?_⟩
    intro hex
    exact word_find_line_found _ lyrics hex

/-- Witness for C8: a zero-generation run whose best genome is in the
corpus. -/
theorem C8_witness :
    ∃ e ∈ [("Hamlet", ['a'])],
      e.2 = (LyricGA.gaLoop (fun _ p => p) 0 0
        [(⟨some 1, ['a']⟩ : Ind (List Char))]).2.headI.solution ∧
      (LyricGA.do_the_ga_result (fun _ p => p) 0 [⟨some 1, ['a']⟩]
        [("Hamlet", ['a'])]).found_in = e.1 :=
  (C8_run_report.1 (fun _ p => p) 0 [⟨some 1, ['a']⟩] [("Hamlet", ['a'])]).2.2.2
    ⟨("Hamlet", ['a']), by simp, by
      rw [LyricGA.gaLoop, dif_neg (by rintro ⟨hlt, _⟩; omega)]
      rfl⟩

theorem breedLoop_none_of_small_pop (pop : List (Ind (List Char))) (t : ℕ) (c : ℚ)
    (rands : ℕ → LyricGA.BreedRand) (ht : pop.length < t) :
    ∀ (fuel : ℕ) (off : List (Ind (List Char))), off.length < pop.length →
      LyricGA.breedLoop pop t c rands fuel off = none := by
  intro fuel
  cases fuel with
  | zero =>
    intro off hlt
    simp only [LyricGA.breedLoop, if_pos hlt]
  | succ n =>
    intro off hlt
    have hts : LyricGA.tournament pop t (rands off.length).mumIdx = none := by
      simp only [LyricGA.tournament, LyricGA.pySample]
      rw [if_neg (by omega)]
      rfl
    have hmk : LyricGA.mkOffspring pop t c (rands off.length) = none := by
      simp only [LyricGA.mkOffspring, hts]
      rfl
    simp only [LyricGA.breedLoop, if_pos hlt, hmk]

/-- Counterexample to C9 as stated: configuration is not validated before
the loop.  With `tournament_size = 3` over a population of `2`, the pre-loop
phase (assessment of the initial population) completes normally and the run
fails only inside generation 1, at the first tournament's `random.sample`
inside `breed`; likewise the word-GA's all-zero operator rates raise only at
the first `random.choices` call. -/
theorem C9_counterexample :
    (LyricGA.assess [⟨none, ['a']⟩, ⟨none, ['b']⟩] 1 [['a']]).length = 2 ∧
    (LyricGA.assess [⟨none, ['a']⟩, ⟨none, ['b']⟩] 1 [['a']]).all
      (fun i => i.fitness.isSome) = true ∧
    LyricGA.breed (LyricGA.assess [⟨none, ['a']⟩, ⟨none, ['b']⟩] 1 [['a']]) 3 0 false
      (fun _ => ⟨[], [], 0, 0⟩) = none ∧
    NewLyricGA.pyChoices [NewLyricGA.MType.point, NewLyricGA.MType.insert,
      NewLyricGA.MType.delete, NewLyricGA.MType.extend] [0, 0, 0, 0] 0 = none := by
  have hlen : (LyricGA.assess [⟨none, ['a']⟩, ⟨none, ['b']⟩] 1 [['a']]).length = 2 := by
    have h := (sortByFitness_perm
      (([(⟨none, ['a']⟩ : Ind (List Char)), ⟨none, ['b']⟩]).map
        (fun i => (⟨some (LyricGA.get_fitness i.solution [['a']] 1), i.solution⟩ :
          Ind (List Char))))).length_eq
    simpa [LyricGA.assess] using h
  refine ⟨hlen,
    List.all_eq_true.mpr (fun i hi => LyricGA.assess_fitness_isSome _ _ _ i hi), ?_, ?_⟩
  · simp only [LyricGA.breed]
    exact breedLoop_none_of_small_pop _ 3 0 _ (by rw [hlen]; omega) _ []
      (by simp [hlen])
  · simp only [NewLyricGA.pyChoices]
    rw [if_pos (by norm_num)]

/-- **C9 (amended).**  Neither driver validates its configuration up front:
with `tournament_size` above the population size every string-GA `breed`
that must generate an offspring fails (at the first `random.sample`), and
with an operator-rate family summing to zero the word GA's first
`random.choices` fails — inside `mutate` whenever a mutation event fires,
and inside `cross` whenever the parents have equal length. -/
theorem C9_invalid_config_raises_at_first_use :
    (∀ (pop : List (Ind (List Char))) (tournament_size : ℕ) (crossover : ℚ)
        (elitism : Bool) (rands : ℕ → LyricGA.BreedRand),
      pop.length < tournament_size → (if elitism then 1 else 0) < pop.length →
      LyricGA.breed pop tournament_size crossover elitism rands = none) ∧
    (∀ (sol : List ℕ) (W : ℕ) (operators : List NewLyricGA.MType) (rates : List ℚ)
        (r : NewLyricGA.MutRand),
      rates.sum ≤ 0 →
      min 1 ((List.range sol.length).countP
        (fun i => decide (r.coins i < 1 / (sol.length : ℚ)))) ≠ 0 →
      NewLyricGA.mutateChild sol W operators rates r = none) ∧
    (∀ (mum dad : List ℕ) (operators : List NewLyricGA.CType) (rates : List ℚ)
        (r : NewLyricGA.CrossRand),
      rates.sum ≤ 0 → mum.length = dad.length →
      NewLyricGA.cross mum dad operators rates r = none) := by
  refine ⟨?_, ?_, ?_⟩
  · intro pop tsize c elitism rands hts helit
    cases elitism with
    | false =>
      simp only [LyricGA.breed]
      exact breedLoop_none_of_small_pop pop tsize c rands hts pop.length []
        (by simpa using helit)
    | true =>
      cases pop with
      | nil => rfl
      | cons e rest =>
        simp only [LyricGA.breed]
        exact breedLoop_none_of_small_pop (e :: rest) tsize c rands hts
          (e :: rest).length [⟨none, e.solution⟩] (by simpa using helit)
  · intro sol W ops rates r hsum hm
    have hpc : NewLyricGA.pyChoices ops rates r.opR = none := by
      simp only [NewLyricGA.pyChoices]
      rw [if_pos hsum]
    simp only [NewLyricGA.mutateChild]
    rw [if_neg hm, hpc]
  · intro mum dad ops rates r hsum heq
    have hpc : NewLyricGA.pyChoices ops rates r.opR = none := by
      simp only [NewLyricGA.pyChoices]
      rw [if_pos hsum]
    simp only [NewLyricGA.cross]
    rw [if_neg (by omega), hpc]

/-- Witness for the amended C9 at a concrete undersized population. -/
theorem C9_witness :
    LyricGA.breed [⟨none, ['a']⟩] 2 0 false (fun _ => ⟨[], [], 0, 0⟩) = none :=
  C9_invalid_config_raises_at_first_use.1 [⟨none, ['a']⟩] 2 0 false
    (fun _ => ⟨[], [], 0, 0⟩) (by decide) (by decide)

end EvoLyrics
